import Mathlib

/-!
Shallow embedding of the mauve-viewer core (src/src/cursor.js): the
alignment data model (regions, groups, strands), the MauveViewer
mutators `setReference`, `swapBackbones`, `hideTrack`, `showTrack`, and
the Cursor mousemove handler that maps a hovered position onto every
other region of the hovered alignment group.

Regions carry integer sequence coordinates; rendering-surface positions
are rationals.  JS objects keyed by track index (`this.relativeXs`,
`this.scales`) are embedded as association lists with JS-object
update/lookup semantics.
-/

namespace MauveViewer

/-- One alignment segment (`region` record of the input data).  `lcb_idx`
is the 1-based track index, `groupID` the alignment group (LCB) the
region belongs to, as assigned by `getGenomeRegions`. -/
structure Region where
  rid : Nat
  start : Int
  end_ : Int
  strand : String
  lcb_idx : Nat
  groupID : Nat
  hidden : Bool
deriving DecidableEq, Repr

/-- An alignment group (LCB): the list of regions of one block. -/
abbrev Group := List Region

/-- The full data set: a list of groups, as in `this.data`. -/
abbrev Data := List Group

/-- `region.strand = region.strand === '-' ? '+' : '-'` (setReference's
toggle of non-reference members). -/
def toggleStrand (s : String) : String :=
  if s = "-" then "+" else "-"

/-- First pass of `setReference` over one region: if it belongs to the
reference track and its strand is not `+`, set it to `+`. -/
def setRefPass1 (id : Nat) (r : Region) : Region :=
  if r.lcb_idx = id ∧ r.strand ≠ "+" then { r with strand := "+" } else r

/-- Second pass of `setReference` over one region: toggle the strand of
every region not on the reference track. -/
def setRefPass2 (id : Nat) (r : Region) : Region :=
  if r.lcb_idx = id then r else { r with strand := toggleStrand r.strand }

/-- `MauveViewer.setReference`, body of the `this.data.forEach(lcb => ...)`
loop: normalize the reference track's member to `+`; if that flipped
anything, toggle every other member of the group. -/
def setRefGroup (id : Nat) (g : Group) : Group :=
  let flipped := g.any (fun r => decide (r.lcb_idx = id ∧ r.strand ≠ "+"))
  let g1 := g.map (setRefPass1 id)
  if flipped then g1.map (setRefPass2 id) else g1

/-- `MauveViewer.setReference(id)`: per-group reference reorientation. -/
def setReference (id : Nat) (d : Data) : Data :=
  d.map (setRefGroup id)

/-- The net effect, on one region of a flipped group, of a reference
change: the reference track's member is set to `+`, every other
member's strand is toggled. -/
def refFlip (id : Nat) (r : Region) : Region :=
  if r.lcb_idx = id then { r with strand := "+" }
  else { r with strand := toggleStrand r.strand }

/-- Data-model well-formedness of a strand value: `+` or `-`. -/
def wfStrand (r : Region) : Prop :=
  r.strand = "+" ∨ r.strand = "-"

/-- The identity of a region for group-membership questions: its
load-time region id paired with its group id. -/
def regionKey (r : Region) : Nat × Nat :=
  (r.rid, r.groupID)

/-- Relabeling step of `MauveViewer.swapBackbones`: exchange track
indices `oldID` and `newID` on one region. -/
def swapIdx (a b : Nat) (r : Region) : Region :=
  if r.lcb_idx = a then { r with lcb_idx := b }
  else if r.lcb_idx = b then { r with lcb_idx := a }
  else r

/-- Order used by `lcb.sort((a, b) => a.lcb_idx - b.lcb_idx)`. -/
def regionLe (x y : Region) : Prop := x.lcb_idx ≤ y.lcb_idx

instance : DecidableRel regionLe := fun x y => Nat.decLe x.lcb_idx y.lcb_idx

instance : IsTotal Region regionLe := ⟨fun x y => Nat.le_total x.lcb_idx y.lcb_idx⟩

instance : IsTrans Region regionLe := ⟨fun _ _ _ h h' => Nat.le_trans h h'⟩

/-- Strict version of `regionLe`, used to identify sorted groups with
distinct track indices. -/
def regionLt (x y : Region) : Prop := x.lcb_idx < y.lcb_idx

instance : IsAntisymm Region regionLt :=
  ⟨fun _ _ h h' => absurd (Nat.lt_trans h h') (Nat.lt_irrefl _)⟩

/-- `MauveViewer.swapBackbones` on one group: relabel `a ↔ b`, then
re-sort the group by track index ascending (JS `Array.sort` is stable;
embedded as insertion sort). -/
def swapGroup (a b : Nat) (g : Group) : Group :=
  List.insertionSort regionLe (g.map (swapIdx a b))

/-- `MauveViewer.swapBackbones(oldID, newID)`. -/
def swapBackbones (a b : Nat) (d : Data) : Data :=
  d.map (swapGroup a b)

/-- Region part of `MauveViewer.hideTrack(id)`: mark every region of
that track hidden. -/
def hideTrackRegions (id : Nat) (d : Data) : Data :=
  d.map (fun g => g.map (fun r => if r.lcb_idx = id then { r with hidden := true } else r))

/-- Region part of `MauveViewer.showTrack(id)`: `delete region.hidden`
on every region of that track. -/
def showTrackRegions (id : Nat) (d : Data) : Data :=
  d.map (fun g => g.map (fun r => if r.lcb_idx = id then { r with hidden := false } else r))

/-- Hidden-tracks-list part of `hideTrack`: `this.hiddenTracks.push(id)`. -/
def hideTrackHidden (l : List Nat) (id : Nat) : List Nat :=
  l ++ [id]

/-- `arr.indexOf(x)` of JS: index of the first occurrence, `-1` if absent. -/
def jsIndexOf (l : List Nat) (x : Nat) : Int :=
  match l with
  | [] => -1
  | a :: t =>
      if a = x then 0
      else
        let k := jsIndexOf t x
        if k < 0 then -1 else k + 1

/-- `arr.splice(start)` of JS with a single argument: removes every
element from `start` (clamped into range; negative counts from the end)
to the end; the array that remains is the part before `start`. -/
def jsSpliceDeleteFrom {α : Type} (l : List α) (start : Int) : List α :=
  let s := if start < 0 then (max ((l.length : Int) + start) 0).toNat else start.toNat
  l.take s

/-- Hidden-tracks-list part of `showTrack`:
`this.hiddenTracks.splice(this.hiddenTracks.indexOf(id))`. -/
def showTrackHidden (l : List Nat) (id : Nat) : List Nat :=
  jsSpliceDeleteFrom l (jsIndexOf l id)

/-- `this.hiddenTracks.includes(id)`, the visibility test `render` uses
to decide whether a track is drawn collapsed. -/
def renderIsHidden (hiddenTracks : List Nat) (id : Nat) : Bool :=
  hiddenTracks.contains id

/-- Modelled from the spec: the per-track coordinate scale
(`Track.getZoomScale`, a d3 linear scale; `track.js` is not part of the
reviewed source).  Spec §4.1: a continuous invertible linear mapping
from sequence-position space to surface space. -/
structure LinearScale where
  a : ℚ
  b : ℚ
deriving DecidableEq, Repr

/-- `x(p)`: apply the scale. -/
def LinearScale.apply (s : LinearScale) (p : ℚ) : ℚ :=
  s.a * p + s.b

/-- `x.invert(q)`: invert the scale. -/
def LinearScale.invert (s : LinearScale) (q : ℚ) : ℚ :=
  (q - s.b) / s.a

/-- `Math.round(q)` of JS: the floor of `q + 1/2` (halves round up). -/
def mathRound (q : ℚ) : Int :=
  (q + 1/2).floor

/-- JS-object lookup on an association list keyed by track index
(`this.relativeXs[k]`, `this.scales[k]`). -/
def jsGet {α : Type} : List (Nat × α) → Nat → Option α
  | [], _ => none
  | (k, v) :: t, k' => if k = k' then some v else jsGet t k'

/-- JS-object assignment `obj[k] = v`: overwrite the existing entry in
place, or append a new one. -/
def jsSet {α : Type} (m : List (Nat × α)) (k : Nat) (v : α) : List (Nat × α) :=
  if (jsGet m k).isSome then m.map (fun p => if p.1 = k then (k, v) else p)
  else m ++ [(k, v)]

/-- The mutable per-instance state the mousemove handler reads and
writes: `hoverXPos`, `hoverTrackID`, `hoverLCBID`, `relativeXs`,
`scales`, the cursor-line x positions, and whether the cursor lines /
hover boxes are shown. -/
structure CursorState where
  hoverXPos : Option ℚ
  hoverTrackID : Option Nat
  hoverLCBID : Option Nat
  relativeXs : List (Nat × ℚ)
  scales : List (Nat × LinearScale)
  linePos : List (Nat × ℚ)
  cursorsVisible : Bool
deriving DecidableEq, Repr

/-- State right after the constructor: `this.scales = {}`,
`this.relativeXs = {}`, nothing hovered yet. -/
def initState : CursorState :=
  { hoverXPos := none, hoverTrackID := none, hoverLCBID := none,
    relativeXs := [], scales := [], linePos := [], cursorsVisible := true }

/-- What `document.elementFromPoint` resolved the mousemove to: a region
rect (with its datum and the full datum list of its group's rects), one
of the cursor elements, or anything else (background). -/
inductive HoverEvent where
  | overRegion (d : Region) (rawX : ℚ) (group : List Region)
  | overCursorPart
  | background

/-- The `nextXPos` of one non-hovered region: anchored at its `end`
minus the offset when the strands differ, at its `start` plus the
offset when they agree, in that region's own track scale. -/
def otherXPos (T : Nat → LinearScale) (hoverStrand : String) (relXPos : ℚ)
    (r : Region) : ℚ :=
  let x := T (r.lcb_idx - 1)
  if hoverStrand ≠ r.strand then x.apply r.end_ - relXPos
  else x.apply r.start + relXPos

/-- Body of the `svg.selectAll('.group-N').each(...)` loop: for one
other region of the hovered group, compute its cursor position from the
strand-dependent formula and record position, offset and scale. -/
def processOther (T : Nat → LinearScale) (hoverStrand : String) (trackID : Nat)
    (xPos relXPos : ℚ) (s : CursorState) (r : Region) : CursorState :=
  if r.lcb_idx = trackID then s
  else
    let nextXPos := otherXPos T hoverStrand relXPos r
    let diff := xPos - nextXPos + 1
    { s with relativeXs := jsSet s.relativeXs (r.lcb_idx - 1) diff,
             scales := jsSet s.scales (r.lcb_idx - 1) (T (r.lcb_idx - 1)),
             linePos := jsSet s.linePos (r.lcb_idx - 1) nextXPos }

/-- The `mousemove` handler of `Cursor.resetHover`.  `T` gives each
track's zoom scale (`self.tracks[i].getZoomScale()`).  Over a region:
snap to the nearest integer sequence position, record the hovered
track's entry, then walk the group.  Over a cursor element: return
early.  Anything else: hide the cursors and return, leaving the
accumulated state untouched. -/
def mousemove (T : Nat → LinearScale) (s : CursorState) (e : HoverEvent) : CursorState :=
  match e with
  | .overCursorPart => s
  | .background => { s with cursorsVisible := false }
  | .overRegion d rawX group =>
      let trackID := d.lcb_idx
      let x := T (trackID - 1)
      let xPos := x.apply (mathRound (x.invert rawX))
      let relXPos := xPos - x.apply d.start
      let s1 : CursorState :=
        { s with hoverXPos := some xPos,
                 hoverTrackID := some trackID,
                 hoverLCBID := some d.groupID,
                 relativeXs := jsSet s.relativeXs (trackID - 1) 0,
                 scales := jsSet s.scales (trackID - 1) x,
                 linePos := jsSet s.linePos (trackID - 1) xPos }
      group.foldl (processOther T d.strand trackID xPos relXPos) s1

/-- The snapped hover position: `xPos = x(Math.round(x.invert(xPos)))`
using the hovered track's scale. -/
def snapXPos (T : Nat → LinearScale) (d : Region) (rawX : ℚ) : ℚ :=
  (T (d.lcb_idx - 1)).apply (mathRound ((T (d.lcb_idx - 1)).invert rawX))

instance (r : Region) : Decidable (wfStrand r) :=
  inferInstanceAs (Decidable (_ ∨ _))

/-- Concrete example scale set: the identity scale on every track. -/
def exT : Nat → LinearScale := fun _ => { a := 1, b := 0 }

/-- Concrete region, track 1, span 100–200, forward strand. -/
def exA : Region :=
  { rid := 1, start := 100, end_ := 200, strand := "+", lcb_idx := 1, groupID := 0, hidden := false }

/-- Concrete region, track 2, span 500–650, forward strand, in `exA`'s group. -/
def exB : Region :=
  { rid := 2, start := 500, end_ := 650, strand := "+", lcb_idx := 2, groupID := 0, hidden := false }

/-- Concrete region, track 1, span 0–5, forward strand. -/
def exR1 : Region :=
  { rid := 3, start := 0, end_ := 5, strand := "+", lcb_idx := 1, groupID := 0, hidden := false }

/-- Concrete region, track 2, span 10–15, forward strand. -/
def exR2 : Region :=
  { rid := 4, start := 10, end_ := 15, strand := "+", lcb_idx := 2, groupID := 0, hidden := false }

/-- Concrete data set with a single group listed out of track order. -/
def exC5 : Data := [[exR2, exR1]]

/-- Concrete data set with a single group sorted by track index. -/
def exC5S : Data := [[exR1, exR2]]

/-- Concrete data set whose only group has no member on track 1 and a
reverse-strand member on track 2. -/
def exC4 : Data :=
  [[{ rid := 5, start := 10, end_ := 20, strand := "-", lcb_idx := 2, groupID := 0, hidden := false }]]

/-- Concrete data set with one group holding reverse-strand members on
tracks 1 and 2. -/
def exC4W : Data :=
  [[{ rid := 6, start := 0, end_ := 9, strand := "-", lcb_idx := 1, groupID := 0, hidden := false },
    { rid := 7, start := 30, end_ := 44, strand := "-", lcb_idx := 2, groupID := 0, hidden := false }]]

/-- Concrete data set with one group holding a reverse-strand member on
track 1 and a forward member on track 2. -/
def exC2 : Data :=
  [[{ rid := 8, start := 0, end_ := 9, strand := "-", lcb_idx := 1, groupID := 0, hidden := false },
    { rid := 9, start := 30, end_ := 44, strand := "+", lcb_idx := 2, groupID := 0, hidden := false }]]

/-! ### Association-list (JS object) lemmas -/

theorem map_eq_self_of_mem {α : Type} {f : α → α} {l : List α}
    (h : ∀ a ∈ l, f a = a) : l.map f = l := by
  induction l with
  | nil => rfl
  | cons a t ih =>
      rw [List.map_cons, h a (List.mem_cons_self a t),
        ih fun x hx => h x (List.mem_cons_of_mem a hx)]

theorem jsGet_map_update {α : Type} (m : List (Nat × α)) (k : Nat) (v : α) :
    jsGet (m.map fun p => if p.1 = k then (k, v) else p) k =
      if (jsGet m k).isSome then some v else none := by
  induction m with
  | nil => rfl
  | cons p t ih =>
      obtain ⟨k0, v0⟩ := p
      rw [List.map_cons]
      by_cases h : k0 = k
      · subst h
        rw [if_pos rfl]
        simp [jsGet]
      · rw [if_neg h]
        simp only [jsGet, if_neg h, ih]

theorem jsGet_map_update_ne {α : Type} (m : List (Nat × α)) (k k' : Nat) (v : α)
    (h : k' ≠ k) :
    jsGet (m.map fun p => if p.1 = k then (k, v) else p) k' = jsGet m k' := by
  induction m with
  | nil => rfl
  | cons p t ih =>
      obtain ⟨k0, v0⟩ := p
      rw [List.map_cons]
      by_cases h0 : k0 = k
      · subst h0
        rw [if_pos rfl]
        simp only [jsGet, if_neg (Ne.symm h), ih]
      · rw [if_neg h0]
        by_cases h1 : k0 = k'
        · simp only [jsGet, if_pos h1]
        · simp only [jsGet, if_neg h1, ih]

theorem jsGet_append_single {α : Type} (m : List (Nat × α)) (k k' : Nat) (v : α) :
    jsGet (m ++ [(k, v)]) k' =
      if (jsGet m k').isSome then jsGet m k' else if k = k' then some v else none := by
  induction m with
  | nil => simp [jsGet]
  | cons p t ih =>
      obtain ⟨k0, v0⟩ := p
      by_cases h0 : k0 = k'
      · simp [jsGet, h0]
      · simp [jsGet, h0, ih]

theorem jsGet_jsSet_self {α : Type} (m : List (Nat × α)) (k : Nat) (v : α) :
    jsGet (jsSet m k v) k = some v := by
  unfold jsSet
  by_cases h : (jsGet m k).isSome
  · rw [if_pos h, jsGet_map_update, if_pos h]
  · rw [if_neg h, jsGet_append_single,
      if_neg h, if_pos rfl]

theorem jsGet_jsSet_ne {α : Type} (m : List (Nat × α)) (k k' : Nat) (v : α)
    (h : k' ≠ k) :
    jsGet (jsSet m k v) k' = jsGet m k' := by
  unfold jsSet
  by_cases hs : (jsGet m k).isSome
  · rw [if_pos hs]
    exact jsGet_map_update_ne m k k' v h
  · rw [if_neg hs, jsGet_append_single, if_neg (Ne.symm h)]
    by_cases h' : (jsGet m k').isSome
    · rw [if_pos h']
    · rw [if_neg h', Option.not_isSome_iff_eq_none.1 h']

/-! ### setReference lemmas -/

theorem toggleStrand_wf (s : String) : toggleStrand s = "+" ∨ toggleStrand s = "-" := by
  unfold toggleStrand
  by_cases h : s = "-" <;> simp [h]

theorem toggleStrand_toggleStrand (s : String) (h : s = "+" ∨ s = "-") :
    toggleStrand (toggleStrand s) = s := by
  rcases h with h | h <;> subst h <;> rfl

theorem setRefPass2_setRefPass1 (id : Nat) (r : Region) :
    setRefPass2 id (setRefPass1 id r) = refFlip id r := by
  obtain ⟨rid, st, en, sd, idx, gid, hid⟩ := r
  by_cases hidx : idx = id
  · by_cases hs : sd = "+"
    · simp [setRefPass1, setRefPass2, refFlip, hidx, hs]
    · simp [setRefPass1, setRefPass2, refFlip, hidx, hs]
  · simp [setRefPass1, setRefPass2, refFlip, hidx]

theorem setRefGroup_of_not_exists (id : Nat) (g : Group)
    (h : ∀ r ∈ g, r.lcb_idx = id → r.strand = "+") :
    setRefGroup id g = g := by
  have hany : (g.any fun r => decide (r.lcb_idx = id ∧ r.strand ≠ "+")) = false := by
    simp only [List.any_eq_false, decide_eq_true_eq]
    rintro r hr ⟨hidx, hne⟩
    exact hne (h r hr hidx)
  unfold setRefGroup
  rw [hany]
  simp only [Bool.false_eq_true, if_false]
  apply map_eq_self_of_mem
  intro r hr
  have : ¬(r.lcb_idx = id ∧ r.strand ≠ "+") := fun ⟨hidx, hne⟩ => hne (h r hr hidx)
  simp [setRefPass1, this]

theorem setRefGroup_of_exists (id : Nat) (g : Group)
    (h : ∃ r ∈ g, r.lcb_idx = id ∧ r.strand ≠ "+") :
    setRefGroup id g = g.map (refFlip id) := by
  have hany : (g.any fun r => decide (r.lcb_idx = id ∧ r.strand ≠ "+")) = true := by
    simp only [List.any_eq_true, decide_eq_true_eq]
    exact h
  unfold setRefGroup
  rw [hany]
  simp only [if_true, List.map_map]
  apply List.map_congr_left
  intro r _
  exact setRefPass2_setRefPass1 id r

theorem setRefGroup_eq_or (id : Nat) (g : Group) :
    setRefGroup id g = g.map (refFlip id) ∨ setRefGroup id g = g := by
  by_cases h : ∃ r ∈ g, r.lcb_idx = id ∧ r.strand ≠ "+"
  · exact Or.inl (setRefGroup_of_exists id g h)
  · refine Or.inr (setRefGroup_of_not_exists id g ?_)
    intro r hr hidx
    by_contra hne
    exact h ⟨r, hr, hidx, hne⟩

theorem refFlip_lcb_idx (id : Nat) (r : Region) :
    (refFlip id r).lcb_idx = r.lcb_idx := by
  unfold refFlip
  split <;> rfl

theorem refFlip_regionKey (id : Nat) (r : Region) :
    regionKey (refFlip id r) = regionKey r := by
  unfold refFlip regionKey
  split <;> rfl

theorem refFlip_wf (id : Nat) (r : Region) : wfStrand (refFlip id r) := by
  unfold refFlip wfStrand
  split
  · exact Or.inl rfl
  · exact toggleStrand_wf r.strand

theorem setRefGroup_map_lcb_idx (id : Nat) (g : Group) :
    (setRefGroup id g).map Region.lcb_idx = g.map Region.lcb_idx := by
  rcases setRefGroup_eq_or id g with h | h <;> rw [h]
  rw [List.map_map]
  apply List.map_congr_left
  intro r _
  exact refFlip_lcb_idx id r

theorem setRefGroup_ref_plus (id : Nat) (g : Group) :
    ∀ r ∈ setRefGroup id g, r.lcb_idx = id → r.strand = "+" := by
  by_cases h : ∃ r ∈ g, r.lcb_idx = id ∧ r.strand ≠ "+"
  · rw [setRefGroup_of_exists id g h]
    intro r hr hidx
    obtain ⟨x, _, rfl⟩ := List.mem_map.1 hr
    rw [refFlip_lcb_idx] at hidx
    simp [refFlip, hidx]
  · have h' : ∀ r ∈ g, r.lcb_idx = id → r.strand = "+" := by
      intro r hr hidx
      by_contra hne
      exact h ⟨r, hr, hidx, hne⟩
    rw [setRefGroup_of_not_exists id g h']
    exact h'

theorem setRefGroup_wf (id : Nat) (g : Group) (h : ∀ r ∈ g, wfStrand r) :
    ∀ r ∈ setRefGroup id g, wfStrand r := by
  rcases setRefGroup_eq_or id g with heq | heq <;> rw [heq]
  · intro r hr
    obtain ⟨x, _, rfl⟩ := List.mem_map.1 hr
    exact refFlip_wf id x
  · exact h

theorem setRefGroup_idem (id : Nat) (g : Group) :
    setRefGroup id (setRefGroup id g) = setRefGroup id g :=
  setRefGroup_of_not_exists id _ (setRefGroup_ref_plus id g)

theorem setRefGroup_mem_idx (id t : Nat) (g : Group) (ht : ∃ r ∈ g, r.lcb_idx = t) :
    ∃ r ∈ setRefGroup id g, r.lcb_idx = t := by
  obtain ⟨r, hr, hrt⟩ := ht
  have hmem : t ∈ (setRefGroup id g).map Region.lcb_idx := by
    rw [setRefGroup_map_lcb_idx]
    exact List.mem_map.2 ⟨r, hr, hrt⟩
  obtain ⟨r', hr', hrt'⟩ := List.mem_map.1 hmem
  exact ⟨r', hr', hrt'⟩

theorem setRefGroup_aba (t t2 : Nat) (g : Group)
    (hwf : ∀ r ∈ g, wfStrand r)
    (hnd : (g.map Region.lcb_idx).Nodup)
    (ht : ∃ r ∈ g, r.lcb_idx = t) :
    setRefGroup t (setRefGroup t2 (setRefGroup t g)) = setRefGroup t g := by
  have hF1 : ∀ r ∈ setRefGroup t g, r.lcb_idx = t → r.strand = "+" :=
    setRefGroup_ref_plus t g
  have hwf1 : ∀ r ∈ setRefGroup t g, wfStrand r := setRefGroup_wf t g hwf
  have hnd1 : ((setRefGroup t g).map Region.lcb_idx).Nodup := by
    rw [setRefGroup_map_lcb_idx]
    exact hnd
  have ht1 : ∃ r ∈ setRefGroup t g, r.lcb_idx = t := setRefGroup_mem_idx t t g ht
  set g1 := setRefGroup t g
  by_cases hex : ∃ r ∈ g1, r.lcb_idx = t2 ∧ r.strand ≠ "+"
  · obtain ⟨w, hw, hwt2, hwne⟩ := hex
    have htne : t2 ≠ t := by
      intro hEq
      subst hEq
      exact hwne (hF1 w hw hwt2)
    rw [setRefGroup_of_exists t2 g1 ⟨w, hw, hwt2, hwne⟩]
    obtain ⟨rs, hrs, hrst⟩ := ht1
    have hex2 : ∃ r ∈ g1.map (refFlip t2), r.lcb_idx = t ∧ r.strand ≠ "+" := by
      refine ⟨refFlip t2 rs, List.mem_map_of_mem _ hrs, ?_, ?_⟩
      · rw [refFlip_lcb_idx]
        exact hrst
      · have hplus : rs.strand = "+" := hF1 rs hrs hrst
        have hne : rs.lcb_idx ≠ t2 := by
          rw [hrst]
          exact Ne.symm htne
        simp [refFlip, hne, toggleStrand, hplus]
    rw [setRefGroup_of_exists t (g1.map (refFlip t2)) hex2, List.map_map]
    apply map_eq_self_of_mem
    intro r hr
    show refFlip t (refFlip t2 r) = r
    by_cases h1 : r.lcb_idx = t
    · have hplus : r.strand = "+" := hF1 r hr h1
      have hne2 : r.lcb_idx ≠ t2 := by
        rw [h1]
        exact Ne.symm htne
      obtain ⟨rid, st, en, sd, idx, gid, hid⟩ := r
      simp_all [refFlip, toggleStrand]
    · by_cases h2 : r.lcb_idx = t2
      · have hrw : r = w :=
          List.inj_on_of_nodup_map hnd1 hr hw (by rw [h2, hwt2])
        have hminus : r.strand = "-" := by
          rcases hwf1 r hr with hp | hm
          · exact absurd hp (by rw [hrw]; exact hwne)
          · exact hm
        obtain ⟨rid, st, en, sd, idx, gid, hid⟩ := r
        simp_all [refFlip, toggleStrand]
      · have hwfr : wfStrand r := hwf1 r hr
        obtain ⟨rid, st, en, sd, idx, gid, hid⟩ := r
        rcases hwfr with hp | hm <;> simp_all [refFlip, toggleStrand]
  · have hall : ∀ r ∈ g1, r.lcb_idx = t2 → r.strand = "+" := by
      intro r hr hidx
      by_contra hne
      exact hex ⟨r, hr, hidx, hne⟩
    rw [setRefGroup_of_not_exists t2 g1 hall]
    exact setRefGroup_of_not_exists t g1 hF1

/-! ### swapBackbones lemmas -/

theorem swapIdx_swapIdx (a b : Nat) (r : Region) :
    swapIdx a b (swapIdx a b r) = r := by
  obtain ⟨rid, st, en, sd, idx, gid, hid⟩ := r
  by_cases h1 : idx = a
  · by_cases hba : b = a
    · simp [swapIdx, h1, hba]
    · simp [swapIdx, h1, hba]
  · by_cases h2 : idx = b
    · by_cases hba : b = a
      · exact absurd (h2.trans hba) h1
      · simp [swapIdx, h1, h2, hba]
    · simp [swapIdx, h1, h2]

theorem map_swapIdx_swapIdx (a b : Nat) (l : List Region) :
    (l.map (swapIdx a b)).map (swapIdx a b) = l := by
  rw [List.map_map]
  apply map_eq_self_of_mem
  intro r _
  exact swapIdx_swapIdx a b r

theorem sorted_lt_of_le_nodup (g : Group) (hs : List.Sorted regionLe g)
    (hnd : (g.map Region.lcb_idx).Nodup) : List.Sorted regionLt g := by
  have hne : g.Pairwise fun x y => x.lcb_idx ≠ y.lcb_idx := List.pairwise_map.1 hnd
  exact (hs.and hne).imp fun h => Nat.lt_of_le_of_ne h.1 h.2

theorem swapGroup_swapGroup (a b : Nat) (g : Group) (hs : List.Sorted regionLe g)
    (hnd : (g.map Region.lcb_idx).Nodup) :
    swapGroup a b (swapGroup a b g) = g := by
  have hperm : List.Perm (swapGroup a b (swapGroup a b g)) g := by
    unfold swapGroup
    refine (List.perm_insertionSort _ _).trans ?_
    have h1 := (List.perm_insertionSort regionLe (g.map (swapIdx a b))).map (swapIdx a b)
    rw [map_swapIdx_swapIdx] at h1
    exact h1
  have hndL : ((swapGroup a b (swapGroup a b g)).map Region.lcb_idx).Nodup :=
    (hperm.map Region.lcb_idx).nodup_iff.2 hnd
  have hsL : List.Sorted regionLe (swapGroup a b (swapGroup a b g)) := by
    unfold swapGroup
    exact List.sorted_insertionSort regionLe _
  exact List.eq_of_perm_of_sorted hperm
    (sorted_lt_of_le_nodup _ hsL hndL) (sorted_lt_of_le_nodup g hs hnd)

/-! ### mousemove fold lemmas -/

theorem processOther_jsGet_ne (T : Nat → LinearScale) (hs : String) (tid : Nat)
    (xPos relX : ℚ) (s : CursorState) (r : Region) (key : Nat)
    (hkey : r.lcb_idx = tid ∨ r.lcb_idx - 1 ≠ key) :
    jsGet (processOther T hs tid xPos relX s r).relativeXs key = jsGet s.relativeXs key
    ∧ jsGet (processOther T hs tid xPos relX s r).scales key = jsGet s.scales key
    ∧ jsGet (processOther T hs tid xPos relX s r).linePos key = jsGet s.linePos key := by
  by_cases hidx : r.lcb_idx = tid
  · simp [processOther, hidx]
  · rcases hkey with h | h
    · exact absurd h hidx
    · simp only [processOther, if_neg hidx]
      exact ⟨jsGet_jsSet_ne _ _ _ _ (Ne.symm h), jsGet_jsSet_ne _ _ _ _ (Ne.symm h),
        jsGet_jsSet_ne _ _ _ _ (Ne.symm h)⟩

theorem foldl_processOther_jsGet_ne (T : Nat → LinearScale) (hs : String) (tid : Nat)
    (xPos relX : ℚ) (key : Nat) :
    ∀ (group : List Region) (s : CursorState),
      (∀ r ∈ group, r.lcb_idx = tid ∨ r.lcb_idx - 1 ≠ key) →
      jsGet (group.foldl (processOther T hs tid xPos relX) s).relativeXs key
          = jsGet s.relativeXs key
      ∧ jsGet (group.foldl (processOther T hs tid xPos relX) s).scales key
          = jsGet s.scales key
      ∧ jsGet (group.foldl (processOther T hs tid xPos relX) s).linePos key
          = jsGet s.linePos key := by
  intro group
  induction group with
  | nil => exact fun s _ => ⟨rfl, rfl, rfl⟩
  | cons r rest ih =>
      intro s h
      rw [List.foldl_cons]
      have hr := h r (List.mem_cons_self r rest)
      have hrest : ∀ x ∈ rest, x.lcb_idx = tid ∨ x.lcb_idx - 1 ≠ key :=
        fun x hx => h x (List.mem_cons_of_mem r hx)
      obtain ⟨i1, i2, i3⟩ := ih (processOther T hs tid xPos relX s r) hrest
      obtain ⟨p1, p2, p3⟩ := processOther_jsGet_ne T hs tid xPos relX s r key hr
      exact ⟨i1.trans p1, i2.trans p2, i3.trans p3⟩

theorem foldl_processOther_jsGet_mem (T : Nat → LinearScale) (hs : String) (tid : Nat)
    (xPos relX : ℚ) :
    ∀ (group : List Region) (s : CursorState) (r : Region),
      r ∈ group → r.lcb_idx ≠ tid →
      (group.map Region.lcb_idx).Nodup →
      (∀ x ∈ group, 1 ≤ x.lcb_idx) →
      jsGet (group.foldl (processOther T hs tid xPos relX) s).relativeXs (r.lcb_idx - 1)
          = some (xPos - otherXPos T hs relX r + 1)
      ∧ jsGet (group.foldl (processOther T hs tid xPos relX) s).scales (r.lcb_idx - 1)
          = some (T (r.lcb_idx - 1))
      ∧ jsGet (group.foldl (processOther T hs tid xPos relX) s).linePos (r.lcb_idx - 1)
          = some (otherXPos T hs relX r) := by
  intro group
  induction group with
  | nil => intro s r hr; exact absurd hr (List.not_mem_nil r)
  | cons x rest ih =>
      intro s r hr hrtid hnd h1
      have hndc := List.nodup_cons.1 (by rwa [List.map_cons] at hnd)
      rw [List.foldl_cons]
      rcases List.mem_cons.1 hr with rfl | hr'
      · have hstep : processOther T hs tid xPos relX s r =
            { s with
              relativeXs := jsSet s.relativeXs (r.lcb_idx - 1)
                (xPos - otherXPos T hs relX r + 1),
              scales := jsSet s.scales (r.lcb_idx - 1) (T (r.lcb_idx - 1)),
              linePos := jsSet s.linePos (r.lcb_idx - 1) (otherXPos T hs relX r) } := by
          simp [processOther, hrtid]
        have hside : ∀ y ∈ rest, y.lcb_idx = tid ∨ y.lcb_idx - 1 ≠ r.lcb_idx - 1 := by
          intro y hy
          by_cases hyt : y.lcb_idx = tid
          · exact Or.inl hyt
          · refine Or.inr ?_
            have hyne : y.lcb_idx ≠ r.lcb_idx := by
              intro hEq
              exact hndc.1 (hEq ▸ List.mem_map_of_mem Region.lcb_idx hy)
            have hy1 : 1 ≤ y.lcb_idx := h1 y (List.mem_cons_of_mem r hy)
            have hr1 : 1 ≤ r.lcb_idx := h1 r (List.mem_cons_self r rest)
            omega
        obtain ⟨q1, q2, q3⟩ := foldl_processOther_jsGet_ne T hs tid xPos relX
          (r.lcb_idx - 1) rest (processOther T hs tid xPos relX s r) hside
        refine ⟨q1.trans ?_, q2.trans ?_, q3.trans ?_⟩ <;>
        · rw [hstep]
          exact jsGet_jsSet_self _ _ _
      · exact ih (processOther T hs tid xPos relX s x) r hr' hrtid
          (by rw [List.map_cons] at hnd; exact hnd.of_cons)
          (fun y hy => h1 y (List.mem_cons_of_mem x hy))

/-! ### Misc helper lemmas -/

theorem mathRound_eq_round (q : ℚ) : mathRound q = round q := by
  rw [round_eq, mathRound, Rat.floor_def', ← Rat.floor_def]

theorem otherXPos_eq_strand_if (T : Nat → LinearScale) (hs : String) (relX : ℚ)
    (r : Region) :
    otherXPos T hs relX r =
      if r.strand = hs then (T (r.lcb_idx - 1)).apply r.start + relX
      else (T (r.lcb_idx - 1)).apply r.end_ - relX := by
  unfold otherXPos
  by_cases h : r.strand = hs
  · rw [if_neg fun hc => hc h.symm, if_pos h]
  · rw [if_pos fun hc => h hc.symm, if_neg h]

theorem forall2_of_map {α : Type} {P : α → α → Prop} (f : α → α)
    (h : ∀ x, P x (f x)) : ∀ l : List α, List.Forall₂ P l (l.map f)
  | [] => List.Forall₂.nil
  | a :: t => List.Forall₂.cons (h a) (forall2_of_map f h t)

theorem swapIdx_regionKey (a b : Nat) (r : Region) :
    regionKey (swapIdx a b r) = regionKey r := by
  unfold swapIdx regionKey
  split
  · rfl
  · split <;> rfl

theorem jsIndexOf_decomp (pre suf : List Nat) (id : Nat) (h : id ∉ pre) :
    jsIndexOf (pre ++ id :: suf) id = (pre.length : Int) := by
  induction pre with
  | nil => simp [jsIndexOf]
  | cons a p ih =>
      have ha : ¬a = id := fun hEq => h (hEq ▸ List.mem_cons_self a p)
      have hk := ih fun hm => h (List.mem_cons_of_mem a hm)
      rw [List.cons_append]
      show (if a = id then (0 : Int) else
        if jsIndexOf (p ++ id :: suf) id < 0 then -1 else jsIndexOf (p ++ id :: suf) id + 1) = _
      rw [if_neg ha, hk, if_neg (by omega : ¬(p.length : Int) < 0)]
      simp [List.length_cons]

theorem showTrackHidden_decomp (pre suf : List Nat) (id : Nat) (h : id ∉ pre) :
    showTrackHidden (pre ++ id :: suf) id = pre := by
  unfold showTrackHidden jsSpliceDeleteFrom
  rw [jsIndexOf_decomp pre suf id h]
  rw [if_neg (by omega : ¬(pre.length : Int) < 0), Int.toNat_natCast]
  exact List.take_left pre (id :: suf)

/-! ### Claim theorems -/

/-- C2: `setReference(trackIndex)` operates per group: in every group,
if a region with that track index is present with a strand other than
`+`, that region's strand is set to `+` and every other member of the
group has its strand toggled; groups whose reference member was already
`+`, or which have no member for that track index, are left completely
unchanged. -/
theorem c2_setReference_per_group (id : Nat) (d : Data) (g : Group) (hg : g ∈ d) :
    setRefGroup id g ∈ setReference id d
    ∧ ((∃ r ∈ g, r.lcb_idx = id ∧ r.strand ≠ "+") →
        setRefGroup id g = g.map (refFlip id))
    ∧ ((¬∃ r ∈ g, r.lcb_idx = id ∧ r.strand ≠ "+") → setRefGroup id g = g) := by
  refine ⟨List.mem_map_of_mem _ hg, setRefGroup_of_exists id g, ?_⟩
  intro h
  apply setRefGroup_of_not_exists
  intro r hr hidx
  by_contra hne
  exact h ⟨r, hr, hidx, hne⟩

/-- C2 witness: on a group whose track-1 member is `-`, the
reorientation rewrites the group with the flip map, and this group sits
inside `setReference`'s output. -/
theorem c2_setReference_per_group_witness :
    (exC2.head! ∈ exC2
      ∧ (∃ r ∈ exC2.head!, r.lcb_idx = 1 ∧ r.strand ≠ "+"))
    ∧ (setRefGroup 1 exC2.head! ∈ setReference 1 exC2
      ∧ ((∃ r ∈ exC2.head!, r.lcb_idx = 1 ∧ r.strand ≠ "+") →
          setRefGroup 1 exC2.head! = exC2.head!.map (refFlip 1))
      ∧ ((¬∃ r ∈ exC2.head!, r.lcb_idx = 1 ∧ r.strand ≠ "+") →
          setRefGroup 1 exC2.head! = exC2.head!)) :=
  ⟨by decide, c2_setReference_per_group 1 exC2 exC2.head! (by decide)⟩

/-- C3: for every region set and track index, applying `setReference`
twice yields exactly the same strand assignment as applying it once. -/
theorem c3_setReference_idempotent (id : Nat) (d : Data) :
    setReference id (setReference id d) = setReference id d := by
  unfold setReference
  rw [List.map_map]
  apply List.map_congr_left
  intro g _
  exact setRefGroup_idem id g

/-- C4 counterexample: with a group that has no member on track 1 but a
`-` member on track 2, `setReference 1; setReference 2; setReference 1`
leaves that member `+`, while `setReference 1` alone leaves it `-`: the
claimed identity fails as stated. -/
theorem c4_counterexample :
    setReference 1 (setReference 2 (setReference 1 exC4)) ≠ setReference 1 exC4 := by
  decide

/-- C4 (amended): if every group has a member on track `t` (and the
region set is well-formed: strands in `{+,-}`, at most one member per
track per group), then `setReference t; setReference t2; setReference t`
equals `setReference t` alone. -/
theorem c4_setReference_aba (t t2 : Nat) (d : Data)
    (hwf : ∀ g ∈ d, ∀ r ∈ g, wfStrand r)
    (hnd : ∀ g ∈ d, (g.map Region.lcb_idx).Nodup)
    (ht : ∀ g ∈ d, ∃ r ∈ g, r.lcb_idx = t) :
    setReference t (setReference t2 (setReference t d)) = setReference t d := by
  unfold setReference
  rw [List.map_map, List.map_map]
  apply List.map_congr_left
  intro g hg
  exact setRefGroup_aba t t2 g (hwf g hg) (hnd g hg) (ht g hg)

/-- C4 witness: a concrete two-region group containing track 1, on
which the amended round trip holds. -/
theorem c4_setReference_aba_witness :
    ((∀ g ∈ exC4W, ∀ r ∈ g, wfStrand r)
      ∧ (∀ g ∈ exC4W, (g.map Region.lcb_idx).Nodup)
      ∧ (∀ g ∈ exC4W, ∃ r ∈ g, r.lcb_idx = 1))
    ∧ setReference 1 (setReference 2 (setReference 1 exC4W)) = setReference 1 exC4W :=
  ⟨by decide, c4_setReference_aba 1 2 exC4W (by decide) (by decide) (by decide)⟩

/-- C5 counterexample: on a group whose regions are stored out of track
order, the double swap re-sorts the group, so it is not the identity on
iteration order. -/
theorem c5_counterexample :
    swapBackbones 1 2 (swapBackbones 1 2 exC5) ≠ exC5 := by
  decide

/-- C5 (amended): on region sets whose groups are sorted by track index
ascending with at most one member per track per group, applying the
track swap (relabel then re-sort) twice with the same arguments is the
identity, iteration order included. -/
theorem c5_swap_involutive (a b : Nat) (d : Data)
    (hs : ∀ g ∈ d, List.Sorted regionLe g)
    (hnd : ∀ g ∈ d, (g.map Region.lcb_idx).Nodup) :
    swapBackbones a b (swapBackbones a b d) = d := by
  unfold swapBackbones
  rw [List.map_map]
  apply map_eq_self_of_mem
  intro g hg
  exact swapGroup_swapGroup a b g (hs g hg) (hnd g hg)

/-- C5 witness: the double swap is the identity on a concrete sorted
group. -/
theorem c5_swap_involutive_witness :
    ((∀ g ∈ exC5S, List.Sorted regionLe g)
      ∧ (∀ g ∈ exC5S, (g.map Region.lcb_idx).Nodup))
    ∧ swapBackbones 1 2 (swapBackbones 1 2 exC5S) = exC5S :=
  ⟨by decide, c5_swap_involutive 1 2 exC5S (by decide) (by decide)⟩

/-- C7: `setReference`, the track swap, `hideTrack` and `showTrack` all
preserve group membership: group `i` of the output holds exactly the
regions (by load-time id, with unchanged `groupID`) of group `i` of the
input; no region moves between groups. -/
theorem c7_group_membership_preserved (t a b hId sId : Nat) (d : Data) :
    List.Forall₂ (fun g g' => List.Perm (g.map regionKey) (g'.map regionKey))
      d (setReference t d)
    ∧ List.Forall₂ (fun g g' => List.Perm (g.map regionKey) (g'.map regionKey))
      d (swapBackbones a b d)
    ∧ List.Forall₂ (fun g g' => List.Perm (g.map regionKey) (g'.map regionKey))
      d (hideTrackRegions hId d)
    ∧ List.Forall₂ (fun g g' => List.Perm (g.map regionKey) (g'.map regionKey))
      d (showTrackRegions sId d) := by
  refine ⟨?_, ?_, ?_, ?_⟩
  · unfold setReference
    apply forall2_of_map
    intro g
    rcases setRefGroup_eq_or t g with h | h
    · rw [h, List.map_map,
        show regionKey ∘ refFlip t = regionKey from funext fun r => refFlip_regionKey t r]
    · rw [h]
  · unfold swapBackbones
    apply forall2_of_map
    intro g
    unfold swapGroup
    have h1 := (List.perm_insertionSort regionLe (g.map (swapIdx a b))).map regionKey
    rw [List.map_map,
      show regionKey ∘ swapIdx a b = regionKey from funext fun r => swapIdx_regionKey a b r] at h1
    exact h1.symm
  · unfold hideTrackRegions
    apply forall2_of_map
    intro g
    rw [List.map_map,
      show (regionKey ∘ fun r => if r.lcb_idx = hId then { r with hidden := true } else r)
          = regionKey from funext fun r => by
        by_cases h : r.lcb_idx = hId <;> simp [regionKey, Function.comp, h]]
  · unfold showTrackRegions
    apply forall2_of_map
    intro g
    rw [List.map_map,
      show (regionKey ∘ fun r => if r.lcb_idx = sId then { r with hidden := false } else r)
          = regionKey from funext fun r => by
        by_cases h : r.lcb_idx = sId <;> simp [regionKey, Function.comp, h]]

/-- C8: for every integer sequence position, the linear track scale
round-trips: rounding `invert(scale(x))` gives back exactly `x`
(modelled from the spec, `track.js` not being part of the reviewed
source). -/
theorem c8_scale_roundtrip (s : LinearScale) (x : ℤ) (ha : s.a ≠ 0) :
    mathRound (s.invert (s.apply (x : ℚ))) = x := by
  have h : s.invert (s.apply (x : ℚ)) = (x : ℚ) := by
    unfold LinearScale.apply LinearScale.invert
    field_simp
  rw [h, mathRound_eq_round, round_intCast]

/-- C8 witness: the round trip at a concrete scale and position. -/
theorem c8_scale_roundtrip_witness :
    ({ a := 2, b := 3 } : LinearScale).a ≠ 0
    ∧ mathRound (({ a := 2, b := 3 } : LinearScale).invert
        (({ a := 2, b := 3 } : LinearScale).apply ((5 : ℤ) : ℚ))) = 5 :=
  ⟨by norm_num, c8_scale_roundtrip { a := 2, b := 3 } 5 (by norm_num)⟩

/-- C10: when the hidden-tracks list contains `id`, `showTrack(id)`
truncates the list to the part before `id`'s first occurrence — every
entry from that occurrence onward is dropped, so any track recorded
there is no longer treated as hidden by the next render — while only
`id`'s regions have their hidden flag cleared. -/
theorem c10_showTrack_truncates (l : List Nat) (id : Nat) (pre suf : List Nat)
    (d : Data) (hl : l = pre ++ id :: suf) (hpre : id ∉ pre) :
    showTrackHidden l id = pre
    ∧ id ∉ showTrackHidden l id
    ∧ (∀ t, t ∉ pre → renderIsHidden (showTrackHidden l id) t = false)
    ∧ List.Forall₂ (List.Forall₂ fun r r' =>
        (r.lcb_idx = id → r' = { r with hidden := false })
        ∧ (r.lcb_idx ≠ id → r' = r)) d (showTrackRegions id d) := by
  subst hl
  have h0 := showTrackHidden_decomp pre suf id hpre
  refine ⟨h0, by rw [h0]; exact hpre, ?_, ?_⟩
  · intro t ht
    rw [h0]
    simp [renderIsHidden, ht]
  · unfold showTrackRegions
    apply forall2_of_map
    intro g
    apply forall2_of_map
    intro r
    constructor
    · intro h
      rw [if_pos h]
    · intro h
      rw [if_neg h]

/-- C10 witness: hiding tracks 3, 1, 2 in that order and then showing
track 1 leaves only track 3 hidden. -/
theorem c10_showTrack_truncates_witness :
    (([3, 1, 2] : List Nat) = [3] ++ 1 :: [2] ∧ (1 : Nat) ∉ ([3] : List Nat))
    ∧ (showTrackHidden [3, 1, 2] 1 = [3]
      ∧ (1 : Nat) ∉ showTrackHidden [3, 1, 2] 1
      ∧ (∀ t, t ∉ ([3] : List Nat) → renderIsHidden (showTrackHidden [3, 1, 2] 1) t = false)
      ∧ List.Forall₂ (List.Forall₂ fun r r' =>
          (r.lcb_idx = 1 → r' = { r with hidden := false })
          ∧ (r.lcb_idx ≠ 1 → r' = r)) exC5S (showTrackRegions 1 exC5S)) :=
  ⟨⟨rfl, by decide⟩, c10_showTrack_truncates [3, 1, 2] 1 [3] [2] exC5S rfl (by decide)⟩

/-- C1: in the cursor mapping, for every other region `r` of the
hovered region's group, the recorded cursor position on `r`'s track is
that track's scale at `r.start` plus the relative offset when the
strands agree, and that track's scale at `r.end` minus the relative
offset when they differ, the offset being the snapped hover position
minus the hovered track's scale at the hovered region's start. -/
theorem c1_cursor_strand_mapping (T : Nat → LinearScale) (s : CursorState)
    (d : Region) (rawX : ℚ) (group : List Region) (r : Region)
    (hr : r ∈ group) (hne : r.lcb_idx ≠ d.lcb_idx)
    (hnd : (group.map Region.lcb_idx).Nodup)
    (h1 : ∀ x ∈ group, 1 ≤ x.lcb_idx) :
    jsGet (mousemove T s (.overRegion d rawX group)).linePos (r.lcb_idx - 1)
      = some
        (if r.strand = d.strand
         then (T (r.lcb_idx - 1)).apply r.start
            + (snapXPos T d rawX - (T (d.lcb_idx - 1)).apply d.start)
         else (T (r.lcb_idx - 1)).apply r.end_
            - (snapXPos T d rawX - (T (d.lcb_idx - 1)).apply d.start)) := by
  have hunfold : mousemove T s (.overRegion d rawX group)
      = group.foldl (processOther T d.strand d.lcb_idx (snapXPos T d rawX)
          (snapXPos T d rawX - (T (d.lcb_idx - 1)).apply d.start))
        { s with hoverXPos := some (snapXPos T d rawX),
                 hoverTrackID := some d.lcb_idx,
                 hoverLCBID := some d.groupID,
                 relativeXs := jsSet s.relativeXs (d.lcb_idx - 1) 0,
                 scales := jsSet s.scales (d.lcb_idx - 1) (T (d.lcb_idx - 1)),
                 linePos := jsSet s.linePos (d.lcb_idx - 1) (snapXPos T d rawX) } := rfl
  rw [hunfold,
    (foldl_processOther_jsGet_mem T d.strand d.lcb_idx (snapXPos T d rawX)
      (snapXPos T d rawX - (T (d.lcb_idx - 1)).apply d.start) group _ r hr hne hnd h1).2.2,
    otherXPos_eq_strand_if]

/-- C1 witness: identity scales, hover at 150 on a forward region
100–200 of track 1; the same-strand region 500–650 of track 2 is mapped
to 500 + 50 = 550. -/
theorem c1_cursor_strand_mapping_witness :
    (exB ∈ [exA, exB] ∧ exB.lcb_idx ≠ exA.lcb_idx)
    ∧ jsGet (mousemove exT initState (.overRegion exA 150 [exA, exB])).linePos
        (exB.lcb_idx - 1) = some 550 := by
  refine ⟨⟨by decide, by decide⟩, ?_⟩
  have h := c1_cursor_strand_mapping exT initState exA 150 [exA, exB] exB
    (by decide) (by decide) (by decide) (by decide)
  rw [h]
  norm_num [exA, exB, exT, snapXPos, LinearScale.apply, LinearScale.invert,
    mathRound_eq_round, round_ofNat]

/-- C9: the emitted per-track offset is `0` for the hovered track, and
`hoveredPosition - targetPosition + 1` for every other member of the
group; in particular a non-hovered track whose mapped position exactly
coincides with the hovered position reports offset `1`, not `0`. -/
theorem c9_offset_convention (T : Nat → LinearScale) (s : CursorState)
    (d : Region) (rawX : ℚ) (group : List Region)
    (hd1 : 1 ≤ d.lcb_idx)
    (h1 : ∀ x ∈ group, 1 ≤ x.lcb_idx)
    (hnd : (group.map Region.lcb_idx).Nodup) :
    jsGet (mousemove T s (.overRegion d rawX group)).relativeXs (d.lcb_idx - 1) = some 0
    ∧ ∀ r ∈ group, r.lcb_idx ≠ d.lcb_idx →
        ∀ q, jsGet (mousemove T s (.overRegion d rawX group)).linePos (r.lcb_idx - 1)
            = some q →
          jsGet (mousemove T s (.overRegion d rawX group)).relativeXs (r.lcb_idx - 1)
              = some (snapXPos T d rawX - q + 1)
          ∧ (q = snapXPos T d rawX →
              jsGet (mousemove T s (.overRegion d rawX group)).relativeXs (r.lcb_idx - 1)
                  = some 1
              ∧ jsGet (mousemove T s (.overRegion d rawX group)).relativeXs (r.lcb_idx - 1)
                  ≠ some 0) := by
  have hunfold : mousemove T s (.overRegion d rawX group)
      = group.foldl (processOther T d.strand d.lcb_idx (snapXPos T d rawX)
          (snapXPos T d rawX - (T (d.lcb_idx - 1)).apply d.start))
        { s with hoverXPos := some (snapXPos T d rawX),
                 hoverTrackID := some d.lcb_idx,
                 hoverLCBID := some d.groupID,
                 relativeXs := jsSet s.relativeXs (d.lcb_idx - 1) 0,
                 scales := jsSet s.scales (d.lcb_idx - 1) (T (d.lcb_idx - 1)),
                 linePos := jsSet s.linePos (d.lcb_idx - 1) (snapXPos T d rawX) } := rfl
  constructor
  · have hcond : ∀ x ∈ group, x.lcb_idx = d.lcb_idx ∨ x.lcb_idx - 1 ≠ d.lcb_idx - 1 := by
      intro x hx
      by_cases h : x.lcb_idx = d.lcb_idx
      · exact Or.inl h
      · have := h1 x hx
        right
        omega
    rw [hunfold,
      (foldl_processOther_jsGet_ne T d.strand d.lcb_idx (snapXPos T d rawX)
        (snapXPos T d rawX - (T (d.lcb_idx - 1)).apply d.start) (d.lcb_idx - 1)
        group _ hcond).1]
    exact jsGet_jsSet_self _ _ _
  · intro r hr hrne q hq
    have key := foldl_processOther_jsGet_mem T d.strand d.lcb_idx (snapXPos T d rawX)
      (snapXPos T d rawX - (T (d.lcb_idx - 1)).apply d.start) group
      { s with hoverXPos := some (snapXPos T d rawX),
               hoverTrackID := some d.lcb_idx,
               hoverLCBID := some d.groupID,
               relativeXs := jsSet s.relativeXs (d.lcb_idx - 1) 0,
               scales := jsSet s.scales (d.lcb_idx - 1) (T (d.lcb_idx - 1)),
               linePos := jsSet s.linePos (d.lcb_idx - 1) (snapXPos T d rawX) }
      r hr hrne hnd h1
    rw [hunfold, key.2.2] at hq
    have hq' : otherXPos T d.strand
        (snapXPos T d rawX - (T (d.lcb_idx - 1)).apply d.start) r = q :=
      Option.some.inj hq
    constructor
    · rw [hunfold, key.1, hq']
    · intro hqeq
      constructor
      · rw [hunfold, key.1, hq', hqeq, sub_self, zero_add]
      · rw [hunfold, key.1, hq', hqeq, sub_self, zero_add]
        intro hcontra
        have : (1 : ℚ) = 0 := Option.some.inj hcontra
        norm_num at this

/-- C9 witness: with identity scales and a two-region group, the
hovered track's reported offset is `0`. -/
theorem c9_offset_convention_witness :
    ((1 ≤ exA.lcb_idx) ∧ (∀ x ∈ [exA, exB], 1 ≤ x.lcb_idx)
      ∧ (([exA, exB].map Region.lcb_idx).Nodup))
    ∧ jsGet (mousemove exT initState (.overRegion exA 150 [exA, exB])).relativeXs
        (exA.lcb_idx - 1) = some 0 :=
  ⟨⟨by decide, by decide, by decide⟩,
    (c9_offset_convention exT initState exA 150 [exA, exB]
      (by decide) (by decide) (by decide)).1⟩

/-- C6 (amended): a mousemove that resolves to no region hides the
cursor lines and hover boxes and reports no new mapping: the per-track
offset and scale outputs are left exactly as they were, so from the
initial state they carry no entries.  (Entries accumulated by an
earlier region hover persist; see the counterexample.) -/
theorem c6_background_leaves_mapping (T : Nat → LinearScale) (s : CursorState) :
    (mousemove T s .background).relativeXs = s.relativeXs
    ∧ (mousemove T s .background).scales = s.scales
    ∧ (mousemove T s .background).cursorsVisible = false
    ∧ (mousemove T initState .background).relativeXs = []
    ∧ (mousemove T initState .background).scales = [] :=
  ⟨rfl, rfl, rfl, rfl, rfl⟩

/-- C6 counterexample: hover a region of a two-track group, then hover
the background: the cursors are hidden but the per-track offset output
still carries the entries of the earlier hover, so the mapping result
is not empty for all tracks as claimed. -/
theorem c6_counterexample :
    (mousemove exT (mousemove exT initState (.overRegion exA 150 [exA, exB]))
        .background).relativeXs ≠ [] := by
  simp [mousemove, processOther, initState, jsSet, jsGet, exT, exA, exB,
    otherXPos, LinearScale.apply, LinearScale.invert, mathRound_eq_round]

end MauveViewer
